import Mathlib

set_option maxRecDepth 100000

/-!
Verification of the LzxTools offer-deduplication and cache code.

The definitions below are a shallow embedding of the Python sources:

* `remove_special_characters` embeds `main.remove_special_characters` and
  `LzxEntry._normalize_title` (lzx_parser.py), whose bodies are identical:
  `re.sub(r'[^a-zA-Z0-9]', '', value).lower()`.  The regex keeps exactly the
  ASCII alphanumeric code points, and after filtering only ASCII remains, so
  `str.lower` reduces to the ASCII lowercase map (code point + 32 on A-Z).
* `eqPred`, `lzx_group` embed `LzxScrapper._group` (lzx_parser.py).
* `mainPred`, `group_entries` embed `main.group_entries`.
* `CacheState`, `save_cache`, `update_cache`, `exit_scope` embed
  `ScrapperBase` (scrapper_base.py).
* `OtomotoOffer`, `get_offers` embed `OtomotoScrapper.get_offers`
  (otomoto_scrapper.py).

Perceptual image hashes (`imagehash.average_hash(img, 16)`) are fixed-width
bit vectors; they are modelled as `List Bool`.  `h1 - h2` in imagehash counts
differing bits (Hamming distance) and `h.hash.size` is the bit count, so the
normalized distance `(h1 - h2) / h1.hash.size` is modelled over `ℚ`.
-/

namespace LzxTools

/-- A character kept by the substitution `re.sub(r'[^a-zA-Z0-9]', '', value)`:
an ASCII code point in A-Z, a-z or 0-9. -/
def isAsciiAlnum (c : Char) : Bool :=
  (65 ≤ c.toNat && c.toNat ≤ 90) || (97 ≤ c.toNat && c.toNat ≤ 122) ||
    (48 ≤ c.toNat && c.toNat ≤ 57)

/-- ASCII lowercasing of one character, the effect of `str.lower` on the
characters surviving the alphanumeric filter. -/
def lowerChar (c : Char) : Char :=
  if 65 ≤ c.toNat && c.toNat ≤ 90 then Char.ofNat (c.toNat + 32) else c

/-- Embeds `main.remove_special_characters` and `LzxEntry._normalize_title`
(identical bodies): drop every character outside `[A-Za-z0-9]`, then
lowercase. -/
def remove_special_characters (s : String) : String :=
  String.mk ((s.data.filter isAsciiAlnum).map lowerChar)

theorem toNat_ofNat_of_lt {n : Nat} (h : n < 55296) : (Char.ofNat n).toNat = n := by
  have hv : n.isValidChar := Or.inl h
  rw [Char.ofNat, dif_pos hv]
  simp [Char.ofNatAux, Char.toNat, UInt32.toNat]

theorem lowerChar_toNat_of_upper {c : Char} (h1 : 65 ≤ c.toNat) (h2 : c.toNat ≤ 90) :
    (lowerChar c).toNat = c.toNat + 32 := by
  rw [lowerChar, if_pos]
  · exact toNat_ofNat_of_lt (by omega)
  · simp only [Bool.and_eq_true, decide_eq_true_eq]
    exact ⟨h1, h2⟩

theorem lowerChar_of_not_upper {c : Char} (h : ¬(65 ≤ c.toNat ∧ c.toNat ≤ 90)) :
    lowerChar c = c := by
  rw [lowerChar, if_neg]
  simp only [Bool.and_eq_true, decide_eq_true_eq]
  exact h

theorem isAsciiAlnum_lowerChar {c : Char} (h : isAsciiAlnum c = true) :
    isAsciiAlnum (lowerChar c) = true := by
  by_cases hu : 65 ≤ c.toNat ∧ c.toNat ≤ 90
  · have ht := lowerChar_toNat_of_upper hu.1 hu.2
    simp only [isAsciiAlnum, ht, Bool.or_eq_true, Bool.and_eq_true, decide_eq_true_eq]
    omega
  · rw [lowerChar_of_not_upper hu]
    exact h

theorem lowerChar_idem (c : Char) : lowerChar (lowerChar c) = lowerChar c := by
  by_cases hu : 65 ≤ c.toNat ∧ c.toNat ≤ 90
  · have ht := lowerChar_toNat_of_upper hu.1 hu.2
    apply lowerChar_of_not_upper
    omega
  · rw [lowerChar_of_not_upper hu, lowerChar_of_not_upper hu]

/-- Claim C7: title normalization is idempotent — for every string `x`,
stripping characters outside `[A-Za-z0-9]` and lowercasing twice gives the
same string as doing it once. -/
theorem c7_normalize_idempotent (x : String) :
    remove_special_characters (remove_special_characters x) =
      remove_special_characters x := by
  show String.mk ((((x.data.filter isAsciiAlnum).map lowerChar).filter isAsciiAlnum).map
    lowerChar) = String.mk ((x.data.filter isAsciiAlnum).map lowerChar)
  congr 1
  have hf : ((x.data.filter isAsciiAlnum).map lowerChar).filter isAsciiAlnum =
      (x.data.filter isAsciiAlnum).map lowerChar := by
    apply List.filter_eq_self.mpr
    intro a ha
    obtain ⟨c, hc, rfl⟩ := List.mem_map.mp ha
    exact isAsciiAlnum_lowerChar (List.mem_filter.mp hc).2
  rw [hf, List.map_map]
  apply List.map_congr_left
  intro c _
  exact lowerChar_idem c

/-- A raw feed entry as consumed by the grouping code: the fields of a
`FeedParserDict` that grouping reads.  The attached image is represented by
its perceptual hash (`imagehash.average_hash(image, 16)`), the only way the
grouping code consumes it; `none` models an absent image. -/
structure Entry where
  title : String
  summary : String
  link : String
  published : String
  image : Option (List Bool)
deriving DecidableEq

/-- The fields of `LzxEntry` (lzx_parser.py) that `_group` reads: the wrapped
raw entry, the cached normalized title, the summary and the perceptual image
hash. -/
structure LzxEntry where
  raw : Entry
  normalized_title : String
  summary : String
  image_hash : Option (List Bool)
deriving DecidableEq

/-- Embeds `LzxScrapper._wrap` plus `_compute_hash`: wrap a raw entry, caching
`_normalize_title(title)` and the average hash of the attached image. -/
def wrapEntry (e : Entry) : LzxEntry :=
  { raw := e
    normalized_title := remove_special_characters e.title
    summary := e.summary
    image_hash := e.image }

/-- Hamming distance of two image hashes: `h1 - h2` in imagehash counts the
positions where the flattened bit arrays differ. -/
def hammingDist (h1 h2 : List Bool) : Nat :=
  ((h1.zip h2).filter (fun p => p.1 != p.2)).length

/-- Normalized hash distance `(h1 - h2) / h1.hash.size` from
`LzxScrapper._group` and `main.group_entries`: the rational number with
numerator `h1 - h2` and denominator `h1.hash.size`, built with `Rat.divInt`
(the direct rational quotient, equal to division by `Rat.divInt_eq_div`) so
that the definition evaluates on concrete hashes. -/
def normDist (h1 h2 : List Bool) : ℚ :=
  Rat.divInt (hammingDist h1 h2) (h1.length)

/-- The image-similarity clause of `LzxScrapper._group`'s scan body:
`duplicate` starts out `True` and is recomputed as
`dist <= similarity_threshold` only when both image hashes are truthy
(present, with a nonzero bit count — `bool(ImageHash)` is `hash.size != 0`). -/
def imageClause (similarity_threshold : ℚ) :
    Option (List Bool) → Option (List Bool) → Bool
  | some h1, some h2 =>
    if h1.isEmpty || h2.isEmpty then true
    else decide (normDist h1 h2 ≤ similarity_threshold)
  | _, _ => true

/-- The per-candidate test of the scan body in `LzxScrapper._group`
(lzx_parser.py lines 217-231): a candidate `other` joins `base`'s group iff
the normalized titles match, the summaries match when `require_same_price`,
and the image clause holds. -/
def eqPred (require_same_price : Bool) (similarity_threshold : ℚ)
    (base other : LzxEntry) : Bool :=
  if base.normalized_title ≠ other.normalized_title then false
  else if require_same_price = true ∧ base.summary ≠ other.summary then false
  else imageClause similarity_threshold base.image_hash other.image_hash

/-- One round of the greedy grouping loop shared by `LzxScrapper._group` and
`main.group_entries`: pop the last element of the working list as the seed,
scan the remaining elements in order putting each into either the seed's
group or the survivor list, then recurse on the survivors.  The `Nat`
argument is fuel; the initial list length suffices because every round
removes at least the seed. -/
def greedyGroupAux {α : Type} (p : α → α → Bool) : Nat → List α → List (List α)
  | _, [] => []
  | 0, _ :: _ => []
  | n + 1, a :: as =>
    ((a :: as).getLast (List.cons_ne_nil a as) ::
        (a :: as).dropLast.filter
          (fun x => p ((a :: as).getLast (List.cons_ne_nil a as)) x)) ::
      greedyGroupAux p n
        ((a :: as).dropLast.filter
          (fun x => !(p ((a :: as).getLast (List.cons_ne_nil a as)) x)))

/-- The greedy single-pass clustering loop, with enough fuel to finish. -/
def greedyGroup {α : Type} (p : α → α → Bool) (l : List α) : List (List α) :=
  greedyGroupAux p l.length l

/-- Embeds `LzxScrapper._group`: wrap the raw entries, run the greedy loop
with the composite predicate, and collect the raw entries of each group. -/
def lzx_group (require_same_price : Bool) (similarity_threshold : ℚ)
    (entries : List Entry) : List (List Entry) :=
  if entries.isEmpty then []
  else
    (greedyGroup (eqPred require_same_price similarity_threshold)
        (entries.map wrapEntry)).map (fun g => g.map LzxEntry.raw)

/-- The per-candidate test of the scan body in `main.group_entries` (main.py
lines 100-113).  `is_same_price` is the constant `True` there, so the price
clause degenerates to the title test.  When either image is absent the
candidate joins iff the normalized titles match; when both images are present
it joins iff the similarity score is strictly below `0.1` or the normalized
titles match. -/
def mainPred (entry entry2 : Entry) : Bool :=
  match entry.image, entry2.image with
  | some h1, some h2 =>
    decide (normDist h1 h2 < Rat.divInt 1 10) ||
      decide (remove_special_characters entry.title =
        remove_special_characters entry2.title)
  | _, _ =>
    decide (remove_special_characters entry.title =
      remove_special_characters entry2.title)

/-- Embeds `main.group_entries`: the greedy loop with `mainPred`. -/
def group_entries (entries : List Entry) : List (List Entry) :=
  greedyGroup mainPred entries

theorem greedyGroupAux_flatten_perm {α : Type} (p : α → α → Bool) :
    ∀ (n : Nat) (l : List α), l.length ≤ n →
      (greedyGroupAux p n l).flatten.Perm l := by
  intro n
  induction n with
  | zero =>
    intro l hl
    have : l = [] := List.length_eq_zero.mp (Nat.le_zero.mp hl)
    subst this
    simp [greedyGroupAux]
  | succ n ih =>
    intro l hl
    cases l with
    | nil => simp [greedyGroupAux]
    | cons a as =>
      rw [greedyGroupAux, List.flatten_cons]
      have hrest : (a :: as).dropLast.length = as.length := by
        simp [List.length_dropLast]
      have hlen : ((a :: as).dropLast.filter
          (fun x => !(p ((a :: as).getLast (List.cons_ne_nil a as)) x))).length ≤ n := by
        calc _ ≤ (a :: as).dropLast.length := List.length_filter_le _ _
        _ = as.length := hrest
        _ ≤ n := by simpa using hl
      have hperm := ih _ hlen
      have hsplit :
          (a :: as).dropLast ++ [(a :: as).getLast (List.cons_ne_nil a as)] = a :: as :=
        List.dropLast_append_getLast (List.cons_ne_nil a as)
      refine List.Perm.trans (List.Perm.append_left _ hperm) ?_
      refine List.Perm.trans (List.Perm.cons _ (List.filter_append_perm _ _)) ?_
      refine List.Perm.trans (List.perm_append_singleton _ _).symm ?_
      rw [hsplit]

theorem greedyGroup_flatten_perm {α : Type} (p : α → α → Bool) (l : List α) :
    (greedyGroup p l).flatten.Perm l :=
  greedyGroupAux_flatten_perm p l.length l (Nat.le_refl _)

/-- Claim C1: the grouping operations return a partition — the multiset union
of all output groups equals the input list, with every input offer appearing
in exactly one group exactly once, for every setting of `require_same_price`
and `similarity_threshold` (for `LzxScrapper._group`) and for
`main.group_entries`. -/
theorem c1_grouping_partition (require_same_price : Bool)
    (similarity_threshold : ℚ) (entries : List Entry) :
    (lzx_group require_same_price similarity_threshold entries).flatten.Perm entries ∧
      (group_entries entries).flatten.Perm entries := by
  constructor
  · cases entries with
    | nil => simp [lzx_group]
    | cons a as =>
      rw [lzx_group, if_neg (by simp)]
      have hflat :
          ((greedyGroup (eqPred require_same_price similarity_threshold)
              ((a :: as).map wrapEntry)).map (fun g => g.map LzxEntry.raw)).flatten =
            ((greedyGroup (eqPred require_same_price similarity_threshold)
              ((a :: as).map wrapEntry)).flatten).map LzxEntry.raw := by
        rw [List.map_flatten]
      rw [hflat]
      have hperm := (greedyGroup_flatten_perm
        (eqPred require_same_price similarity_threshold)
        ((a :: as).map wrapEntry)).map LzxEntry.raw
      have hid : ((a :: as).map wrapEntry).map LzxEntry.raw = a :: as := by
        rw [List.map_map]
        exact (List.map_congr_left (fun e _ => rfl)).trans (List.map_id (a :: as))
      rw [hid] at hperm
      exact hperm
  · exact greedyGroup_flatten_perm mainPred entries

theorem greedyGroup_pair {α : Type} (p : α → α → Bool) (x y : α) :
    greedyGroup p [x, y] = if p y x then [[y, x]] else [[y], [x]] := by
  cases hp : p y x <;>
    simp [greedyGroup, greedyGroupAux, List.getLast, List.dropLast, List.filter, hp]

theorem lzx_group_pair (require_same_price : Bool) (similarity_threshold : ℚ)
    (a b : Entry) :
    lzx_group require_same_price similarity_threshold [a, b] =
      if eqPred require_same_price similarity_threshold (wrapEntry b) (wrapEntry a)
      then [[b, a]] else [[b], [a]] := by
  rw [lzx_group, if_neg (by simp)]
  show (greedyGroup (eqPred require_same_price similarity_threshold)
      [wrapEntry a, wrapEntry b]).map (fun g => g.map LzxEntry.raw) = _
  rw [greedyGroup_pair]
  cases hp : eqPred require_same_price similarity_threshold (wrapEntry b) (wrapEntry a) <;>
    simp [hp, wrapEntry]

theorem group_entries_pair (x y : Entry) :
    group_entries [x, y] = if mainPred y x then [[y, x]] else [[y], [x]] :=
  greedyGroup_pair mainPred x y

/-- Claim C2 (amended): in `LzxScrapper._group`, differing normalized titles
make the equality predicate false in both directions, and a two-entry input
with differing normalized titles yields two singleton groups, for every
`require_same_price`, `similarity_threshold` and image hashes.  The original
claim fails for `main.group_entries`, where a candidate whose images are
similar to the seed's joins the group although the normalized titles
differ. -/
theorem c2_amended (require_same_price : Bool) (similarity_threshold : ℚ)
    (x y : Entry)
    (h : remove_special_characters x.title ≠ remove_special_characters y.title) :
    eqPred require_same_price similarity_threshold (wrapEntry x) (wrapEntry y) = false ∧
      eqPred require_same_price similarity_threshold (wrapEntry y) (wrapEntry x) = false ∧
      lzx_group require_same_price similarity_threshold [x, y] = [[y], [x]] := by
  have h1 : eqPred require_same_price similarity_threshold
      (wrapEntry x) (wrapEntry y) = false := by
    rw [eqPred, if_pos]
    exact h
  have h2 : eqPred require_same_price similarity_threshold
      (wrapEntry y) (wrapEntry x) = false := by
    rw [eqPred, if_pos]
    exact Ne.symm h
  refine ⟨h1, h2, ?_⟩
  rw [lzx_group_pair, h2]
  simp

/-- The all-ones 256-bit image hash (`average_hash` with hash size 16
produces 256 bits). -/
def hashAll : List Bool := List.replicate 256 true

/-- A 256-bit hash differing from `hashAll` in exactly 64 bits: normalized
distance 1/4. -/
def hashQuarter : List Bool := List.replicate 64 false ++ List.replicate 192 true

/-- A 256-bit hash differing from `hashAll` in exactly 128 bits: normalized
distance 1/2. -/
def hashHalf : List Bool := List.replicate 128 false ++ List.replicate 128 true

/-- Two offers with different titles but identical images. -/
def entX : Entry :=
  { title := "iPhone 12", summary := "1000", link := "x", published := "d",
    image := some hashAll }

def entY : Entry :=
  { title := "Samsung TV", summary := "1000", link := "y", published := "d",
    image := some hashAll }

/-- Claim C2 counterexample: in `main.group_entries` two offers with
different normalized titles but identical images (distance 0 < 0.1) end up
in one group — the candidate joins the seed's group although the normalized
titles differ. -/
theorem c2_counterexample :
    remove_special_characters entX.title ≠ remove_special_characters entY.title ∧
      group_entries [entX, entY] = [[entY, entX]] := by
  constructor
  · decide
  · decide

theorem c2_witness :
    lzx_group true (1 / 10) [entX, entY] = [[entY], [entX]] :=
  (c2_amended true (1 / 10) entX entY (by decide)).2.2

/-- Two offers with equal normalized titles and images at distance 1/4. -/
def entP : Entry :=
  { title := "Deal A!!", summary := "10", link := "p", published := "d",
    image := some hashAll }

def entQ : Entry :=
  { title := "deal a", summary := "10", link := "q", published := "d",
    image := some hashQuarter }

theorem imageClause_some (similarity_threshold : ℚ) (h1 h2 : List Bool)
    (hn1 : h1 ≠ []) (hn2 : h2 ≠ []) :
    imageClause similarity_threshold (some h1) (some h2) =
      decide (normDist h1 h2 ≤ similarity_threshold) := by
  have hc : (h1.isEmpty || h2.isEmpty) = false := by
    simp [hn1, hn2]
  simp [imageClause, hc]

theorem eqPred_price_disabled_of_title_eq (similarity_threshold : ℚ)
    {base other : LzxEntry} (ht : base.normalized_title = other.normalized_title) :
    eqPred false similarity_threshold base other =
      imageClause similarity_threshold base.image_hash other.image_hash := by
  rw [eqPred,
    if_neg (show ¬(base.normalized_title ≠ other.normalized_title) from
      fun hc => hc ht),
    if_neg (show ¬(false = true ∧ base.summary ≠ other.summary) from
      fun hc => Bool.false_ne_true hc.1)]

/-- Normalized distance between `hashQuarter` and `hashAll` is 1/4. -/
theorem normDist_quarter : normDist hashQuarter hashAll = 1 / 4 := by
  have h : hammingDist hashQuarter hashAll = 64 := by decide
  have hl : hashQuarter.length = 256 := by decide
  rw [normDist, h, hl, Rat.divInt_eq_div]
  norm_num

/-- Claim C3 counterexample: in `main.group_entries` two offers with equal
normalized titles and image-hash distance 1/4 (above the 0.10 threshold) end
up in one group of two, not in two singleton groups. -/
theorem c3_counterexample :
    remove_special_characters entP.title = remove_special_characters entQ.title ∧
      normDist hashQuarter hashAll = 1 / 4 ∧
      group_entries [entP, entQ] = [[entQ, entP]] :=
  ⟨by decide, normDist_quarter, by decide⟩

/-- Claim C3 (amended): in `LzxScrapper._group`, two offers with identical
normalized titles, both with present (nonempty) image hashes, price check
disabled, and normalized image-hash distance 1/4 (above the 0.10 threshold)
are placed in two separate singleton groups. -/
theorem c3_amended (a b : Entry) (ha hb : List Bool)
    (hia : a.image = some ha) (hib : b.image = some hb)
    (ht : remove_special_characters a.title = remove_special_characters b.title)
    (hna : ha ≠ []) (hnb : hb ≠ [])
    (hd : normDist hb ha = 1 / 4) :
    lzx_group false (1 / 10) [a, b] = [[b], [a]] := by
  have hbh : (wrapEntry b).image_hash = some hb := hib
  have hah : (wrapEntry a).image_hash = some ha := hia
  have hp : eqPred false (1 / 10) (wrapEntry b) (wrapEntry a) = false := by
    rw [eqPred_price_disabled_of_title_eq _
        (show (wrapEntry b).normalized_title = (wrapEntry a).normalized_title from
          ht.symm),
      hbh, hah, imageClause_some _ _ _ hnb hna, hd]
    simp only [decide_eq_false_iff_not]
    norm_num
  rw [lzx_group_pair, hp]
  simp

theorem c3_witness : lzx_group false (1 / 10) [entP, entQ] = [[entQ], [entP]] :=
  c3_amended entP entQ hashAll hashQuarter rfl rfl (by decide) (by decide)
    (by decide) normDist_quarter

/-- Two offers with equal normalized titles and images at distance 1/2. -/
def entR : Entry :=
  { title := "Laptop X1", summary := "10", link := "r", published := "d",
    image := some hashAll }

def entS : Entry :=
  { title := "laptop x1", summary := "10", link := "s", published := "d",
    image := some hashHalf }

/-- Normalized distance between `hashHalf` and `hashAll` is 1/2. -/
theorem normDist_half : normDist hashHalf hashAll = 1 / 2 := by
  have h : hammingDist hashHalf hashAll = 128 := by decide
  have hl : hashHalf.length = 256 := by decide
  rw [normDist, h, hl, Rat.divInt_eq_div]
  norm_num

/-- Claim C4 counterexample: in `main.group_entries` the comparison is the
strict `score < 0.1`, and a pair with identical normalized titles at distance
1/2 — strictly greater than the threshold — is still merged into one group,
so distance above the threshold does not keep offers separate there. -/
theorem c4_counterexample :
    remove_special_characters entR.title = remove_special_characters entS.title ∧
      normDist hashHalf hashAll = 1 / 2 ∧ ¬((1 : ℚ) / 2 ≤ 1 / 10) ∧
      group_entries [entR, entS] = [[entS, entR]] :=
  ⟨by decide, normDist_half, by norm_num, by decide⟩

/-- Claim C4 (amended): in `LzxScrapper._group` the threshold comparison is
the inclusive `dist <= similarity_threshold`: for a pair with identical
normalized titles, price check disabled and both (nonempty) image hashes
present, the two offers land in one group exactly when the normalized
distance is at most the threshold — equal distance groups them, strictly
greater distance keeps them separate. -/
theorem c4_amended (a b : Entry) (ha hb : List Bool) (similarity_threshold : ℚ)
    (hia : a.image = some ha) (hib : b.image = some hb)
    (ht : remove_special_characters a.title = remove_special_characters b.title)
    (hna : ha ≠ []) (hnb : hb ≠ []) :
    lzx_group false similarity_threshold [a, b] =
      if normDist hb ha ≤ similarity_threshold then [[b, a]] else [[b], [a]] := by
  have hbh : (wrapEntry b).image_hash = some hb := hib
  have hah : (wrapEntry a).image_hash = some ha := hia
  have hp : eqPred false similarity_threshold (wrapEntry b) (wrapEntry a) =
      decide (normDist hb ha ≤ similarity_threshold) := by
    rw [eqPred_price_disabled_of_title_eq _
        (show (wrapEntry b).normalized_title = (wrapEntry a).normalized_title from
          ht.symm),
      hbh, hah, imageClause_some _ _ _ hnb hna]
  rw [lzx_group_pair, hp]
  by_cases hle : normDist hb ha ≤ similarity_threshold <;> simp [hle]

theorem c4_witness : lzx_group false (1 / 4) [entP, entQ] = [[entQ, entP]] := by
  have h := c4_amended entP entQ hashAll hashQuarter (1 / 4) rfl rfl (by decide)
    (by decide) (by decide)
  rw [h, normDist_quarter, if_pos (le_refl _)]

/-- Claim C5: when at least one of two offers lacks an image hash, and the
normalized titles and summaries agree, the image comparison is skipped and
the pair is grouped together — by `LzxScrapper._group` for every
`require_same_price` and `similarity_threshold`, and by
`main.group_entries`. -/
theorem c5_no_image_fallback (require_same_price : Bool)
    (similarity_threshold : ℚ) (a b : Entry)
    (ht : remove_special_characters a.title = remove_special_characters b.title)
    (hs : a.summary = b.summary)
    (hi : a.image = none ∨ b.image = none) :
    eqPred require_same_price similarity_threshold (wrapEntry b) (wrapEntry a) = true ∧
      lzx_group require_same_price similarity_threshold [a, b] = [[b, a]] ∧
      group_entries [a, b] = [[b, a]] := by
  have hp : eqPred require_same_price similarity_threshold
      (wrapEntry b) (wrapEntry a) = true := by
    rw [eqPred,
      if_neg (show ¬((wrapEntry b).normalized_title ≠
          (wrapEntry a).normalized_title) from fun hc => hc ht.symm),
      if_neg (show ¬(require_same_price = true ∧
          (wrapEntry b).summary ≠ (wrapEntry a).summary) from
        fun hc => hc.2 hs.symm)]
    show imageClause similarity_threshold b.image a.image = true
    rcases hi with hia | hib
    · rw [hia]
      cases hb2 : b.image <;> simp [imageClause]
    · rw [hib]
      cases ha2 : a.image <;> simp [imageClause]
  have hm : mainPred b a = true := by
    rw [mainPred]
    rcases hi with hia | hib
    · rw [hia]
      cases hb2 : b.image <;> simp [ht]
    · rw [hib]
      cases ha2 : a.image <;> simp [ht]
  refine ⟨hp, ?_, ?_⟩
  · rw [lzx_group_pair, hp]
    simp
  · rw [group_entries_pair, hm]
    simp

/-- An offer with no image. -/
def entN : Entry :=
  { title := "DEAL-a", summary := "10", link := "n", published := "d",
    image := none }

theorem c5_witness :
    lzx_group true (1 / 10) [entP, entN] = [[entN, entP]] :=
  (c5_no_image_fallback true (1 / 10) entP entN (by decide) rfl (Or.inr rfl)).2.1

theorem hammingDist_comm : ∀ (h1 h2 : List Bool), hammingDist h1 h2 = hammingDist h2 h1 := by
  intro h1
  induction h1 with
  | nil => intro h2; cases h2 <;> simp [hammingDist]
  | cons a t ih =>
    intro h2
    cases h2 with
    | nil => simp [hammingDist]
    | cons b u =>
      have hrec := ih u
      simp only [hammingDist, List.zip_cons_cons, List.filter] at hrec ⊢
      cases a <;> cases b <;> simpa using hrec

theorem normDist_comm_of_length_eq {h1 h2 : List Bool} (h : h1.length = h2.length) :
    normDist h1 h2 = normDist h2 h1 := by
  rw [normDist, normDist, hammingDist_comm, h]

/-- Both image hashes, when present, have the same bit width — true of every
enriched offer, since `average_hash(image, 16)` always produces 256 bits. -/
def hashLenCompatible : Option (List Bool) → Option (List Bool) → Bool
  | some h1, some h2 => h1.length == h2.length
  | _, _ => true

/-- Claim C6: the pairwise equality predicate of `LzxScrapper._group` is
symmetric — for enriched offers (whose present image hashes have equal
width), swapping seed and candidate gives the same result, for any
combination of present/absent hashes and any `require_same_price` and
`similarity_threshold`. -/
theorem imageClause_symm (similarity_threshold : ℚ)
    {oh1 oh2 : Option (List Bool)} (hlen : hashLenCompatible oh1 oh2 = true) :
    imageClause similarity_threshold oh1 oh2 =
      imageClause similarity_threshold oh2 oh1 := by
  cases oh1 with
  | none => cases oh2 <;> rfl
  | some h1 =>
    cases oh2 with
    | none => rfl
    | some h2 =>
      have hl : h1.length = h2.length := by
        simpa [hashLenCompatible] using hlen
      simp only [imageClause]
      rw [normDist_comm_of_length_eq hl, Bool.or_comm]

theorem c6_eqPred_symm (require_same_price : Bool) (similarity_threshold : ℚ)
    (a b : LzxEntry)
    (hlen : hashLenCompatible a.image_hash b.image_hash = true) :
    eqPred require_same_price similarity_threshold a b =
      eqPred require_same_price similarity_threshold b a := by
  rw [eqPred, eqPred]
  by_cases ht : a.normalized_title = b.normalized_title
  · rw [if_neg (show ¬(a.normalized_title ≠ b.normalized_title) from
        fun hc => hc ht),
      if_neg (show ¬(b.normalized_title ≠ a.normalized_title) from
        fun hc => hc ht.symm)]
    by_cases hs : a.summary = b.summary
    · rw [if_neg (show ¬(require_same_price = true ∧ a.summary ≠ b.summary) from
          fun hc => hc.2 hs),
        if_neg (show ¬(require_same_price = true ∧ b.summary ≠ a.summary) from
          fun hc => hc.2 hs.symm)]
      exact imageClause_symm similarity_threshold hlen
    · cases require_same_price with
      | true =>
        rw [if_pos (show true = true ∧ a.summary ≠ b.summary from ⟨rfl, hs⟩),
          if_pos (show true = true ∧ b.summary ≠ a.summary from
            ⟨rfl, fun hc => hs hc.symm⟩)]
      | false =>
        rw [if_neg (show ¬(false = true ∧ a.summary ≠ b.summary) from
            fun hc => Bool.false_ne_true hc.1),
          if_neg (show ¬(false = true ∧ b.summary ≠ a.summary) from
            fun hc => Bool.false_ne_true hc.1)]
        exact imageClause_symm similarity_threshold hlen
  · rw [if_pos (show a.normalized_title ≠ b.normalized_title from ht),
      if_pos (show b.normalized_title ≠ a.normalized_title from
        fun hc => ht hc.symm)]

/-- An enriched offer with the all-ones hash. -/
def wEnt1 : LzxEntry :=
  { raw := entP, normalized_title := "deala", summary := "10",
    image_hash := some hashAll }

/-- An enriched offer with a hash at distance 1/4 from `wEnt1`'s. -/
def wEnt2 : LzxEntry :=
  { raw := entQ, normalized_title := "deala", summary := "12",
    image_hash := some hashQuarter }

theorem c6_witness :
    eqPred true (1 / 10) wEnt1 wEnt2 = eqPred true (1 / 10) wEnt2 wEnt1 :=
  c6_eqPred_symm true (1 / 10) wEnt1 wEnt2 (by decide)

/-- The cache-relevant state of a `ScrapperBase` instance plus the on-disk
cache file (scrapper_base.py): the configured path, the in-memory cache (a
duplicate-free list standing for the Python `set`, `none` when no cache was
configured), the `_dirty` flag, and the persisted contents of the cache file
(`none` when the file does not exist). -/
structure CacheState (α : Type) where
  cache_path : Option String
  cache : Option (List α)
  dirty : Bool
  disk : Option (List α)
deriving DecidableEq

/-- Embeds `ScrapperBase.save_cache`: no-op when `cache_path` or `cache` is
absent, skip when clean and not forced, otherwise write the cache to disk and
clear the dirty flag (the success path of the `try` block). -/
def save_cache {α : Type} (force : Bool) (s : CacheState α) : CacheState α :=
  if s.cache_path.isNone ∨ s.cache.isNone then s
  else if s.dirty = false ∧ force = false then s
  else { s with disk := s.cache, dirty := false }

/-- Embeds `set.update` on the in-memory cache: add each item not already
present, preserving the distinctness of elements. -/
def add_item {α : Type} [DecidableEq α] (c : List α) (i : α) : List α :=
  if i ∈ c then c else c ++ [i]

/-- Embeds `ScrapperBase.update_cache`: initialize the cache if `None`, add
the items, and set `_dirty` only when the cache size actually changed. -/
def update_cache {α : Type} [DecidableEq α] (items : List α) (s : CacheState α) :
    CacheState α :=
  { s with
    cache := some (items.foldl add_item (s.cache.getD []))
    dirty :=
      if (items.foldl add_item (s.cache.getD [])).length ≠ (s.cache.getD []).length
      then true else s.dirty }

/-- Embeds `ScrapperBase.__exit__`: save the cache only when no exception
occurred (`exc_type is None`); when an exception propagates, return without
saving. -/
def exit_scope {α : Type} (exc_type : Option String) (s : CacheState α) :
    CacheState α :=
  match exc_type with
  | none => save_cache false s
  | some _ => s

/-- The cache file path used by `OtomotoScrapper`. -/
def cachePathName : String := "otomoto_cache.pkl.zstd"

/-- A stand-in exception type name for an error propagating out of a
with-block. -/
def errName : String := "RuntimeError"

/-- A scrapper state whose in-memory cache was modified (dirty) but whose
cache file was never written. -/
def dirtyState : CacheState Nat :=
  { cache_path := some cachePathName
    cache := some [1]
    dirty := true
    disk := none }

/-- Claim C8 counterexample: leaving the with-block through an exception does
not persist the cache — `__exit__` returns the state unchanged, leaving a
dirty in-memory cache and no cache file on disk. -/
theorem c8_counterexample :
    exit_scope (some errName) dirtyState = dirtyState ∧
      dirtyState.dirty = true ∧ dirtyState.disk = none ∧
      dirtyState.cache = some [1] :=
  ⟨rfl, rfl, rfl, rfl⟩

/-- Claim C8 (amended): `ScrapperBase.__exit__` flushes the cache only on the
normal exit path — for a state with a configured path and a present, dirty
cache, exiting without an exception writes the cache to disk and clears the
dirty flag, while exiting with an exception leaves the whole state (including
the on-disk file) unchanged; persistence on the error path is left to the
non-guaranteed `__del__` fallback. -/
theorem c8_amended {α : Type} (s : CacheState α) (e : String)
    (hp : s.cache_path.isSome = true) (hc : s.cache.isSome = true)
    (hd : s.dirty = true) :
    (exit_scope none s).disk = s.cache ∧ (exit_scope none s).dirty = false ∧
      exit_scope (some e) s = s := by
  have hsave : save_cache false s = { s with disk := s.cache, dirty := false } := by
    rw [save_cache,
      if_neg (show ¬(s.cache_path.isNone ∨ s.cache.isNone) from by
        rintro (h1 | h1) <;> simp_all),
      if_neg (show ¬(s.dirty = false ∧ false = false) from by
        rintro ⟨h1, _⟩
        rw [hd] at h1
        exact absurd h1 (by decide))]
  have hE : exit_scope none s = save_cache false s := rfl
  refine ⟨?_, ?_, rfl⟩
  · rw [hE, hsave]
  · rw [hE, hsave]

theorem c8_witness :
    (exit_scope none dirtyState).disk = some [1] ∧
      (exit_scope none dirtyState).dirty = false ∧
      exit_scope (some errName) dirtyState = dirtyState := by
  have h := c8_amended dirtyState errName rfl rfl rfl
  exact ⟨h.1.trans rfl, h.2.1, h.2.2⟩

theorem save_cache_of_not_dirty {α : Type} (s : CacheState α)
    (hd : s.dirty = false) : save_cache false s = s := by
  rw [save_cache]
  by_cases hn : s.cache_path.isNone ∨ s.cache.isNone
  · rw [if_pos hn]
  · rw [if_neg hn, if_pos ⟨hd, rfl⟩]

theorem length_le_foldl_add_item {α : Type} [DecidableEq α] :
    ∀ (items : List α) (c : List α), c.length ≤ (items.foldl add_item c).length := by
  intro items
  induction items with
  | nil => intro c; exact Nat.le_refl _
  | cons i is ih =>
    intro c
    rw [List.foldl_cons]
    refine Nat.le_trans ?_ (ih (add_item c i))
    rw [add_item]
    by_cases hm : i ∈ c
    · rw [if_pos hm]
    · rw [if_neg hm, List.length_append]
      omega

theorem foldl_add_item_grows_iff {α : Type} [DecidableEq α] :
    ∀ (items : List α) (c : List α),
      (items.foldl add_item c).length ≠ c.length ↔ ∃ i ∈ items, i ∉ c := by
  intro items
  induction items with
  | nil => intro c; simp
  | cons i is ih =>
    intro c
    rw [List.foldl_cons, add_item]
    by_cases hm : i ∈ c
    · rw [if_pos hm, ih]
      constructor
      · rintro ⟨j, hj, hnj⟩
        exact ⟨j, List.mem_cons_of_mem i hj, hnj⟩
      · rintro ⟨j, hj, hnj⟩
        rcases List.mem_cons.mp hj with rfl | hj2
        · exact absurd hm hnj
        · exact ⟨j, hj2, hnj⟩
    · rw [if_neg hm]
      have hge := length_le_foldl_add_item is (c ++ [i])
      rw [List.length_append] at hge
      constructor
      · intro _
        exact ⟨i, List.mem_cons_self i is, hm⟩
      · intro _
        simp only [List.length_singleton] at hge
        omega

/-- Claim C9: `save_cache(force=False)` leaves the cache file unchanged when
the dirty flag is clear (in fact the whole state is unchanged); and
`update_cache(items)` ends dirty exactly when the flag was already set or
some item was not yet in the cache, so adding only already-present items to a
clean cache keeps it clean and a subsequent non-forced save writes
nothing. -/
theorem c9_dirty_flag {α : Type} [DecidableEq α] (s : CacheState α)
    (items : List α) :
    (s.dirty = false → save_cache false s = s) ∧
      ((update_cache items s).dirty =
        (s.dirty || decide (∃ i ∈ items, i ∉ s.cache.getD []))) ∧
      (s.dirty = false → (∀ i ∈ items, i ∈ s.cache.getD []) →
        (save_cache false (update_cache items s)).disk = s.disk) := by
  refine ⟨fun hd => save_cache_of_not_dirty s hd, ?_, ?_⟩
  · rw [update_cache]
    by_cases hg : ∃ i ∈ items, i ∉ s.cache.getD []
    · rw [if_pos ((foldl_add_item_grows_iff items (s.cache.getD [])).mpr hg)]
      simp [hg]
    · rw [if_neg (fun hc =>
        hg ((foldl_add_item_grows_iff items (s.cache.getD [])).mp hc))]
      simp [hg]
  · intro hd hall
    have hng : ¬∃ i ∈ items, i ∉ s.cache.getD [] := by
      rintro ⟨j, hj, hnj⟩
      exact hnj (hall j hj)
    have hdirty : (update_cache items s).dirty = false := by
      rw [update_cache]
      rw [if_neg (fun hc =>
        hng ((foldl_add_item_grows_iff items (s.cache.getD [])).mp hc))]
      exact hd
    rw [save_cache_of_not_dirty _ hdirty]
    rfl

/-- A clean scrapper state whose cache already holds the item 2. -/
def cleanState : CacheState Nat :=
  { cache_path := some cachePathName
    cache := some [2]
    dirty := false
    disk := some [2] }

theorem c9_witness :
    save_cache false cleanState = cleanState ∧
      (update_cache [2] cleanState).dirty =
        (false || decide (∃ i ∈ ([2] : List Nat), i ∉ ([2] : List Nat))) ∧
      (save_cache false (update_cache [2] cleanState)).disk = some [2] := by
  have h := c9_dirty_flag cleanState [2]
  exact ⟨h.1 rfl, h.2.1, h.2.2 rfl (by decide)⟩

/-- The fields of an `OtomotoOffer` (otomoto_scrapper.py) — a frozen
dataclass, so offers compare and hash by field values. -/
structure OtomotoOffer where
  title : String
  link : String
  year : String
  mileage : String
  image_link : Option String
  price : String
deriving DecidableEq

/-- One iteration of the article loop in `OtomotoScrapper.get_offers`: a
failed parse (`None`) is skipped; a parsed offer already in the cache is
skipped; otherwise it is appended to the result and added directly to the
in-memory cache (`self.cache.add`, not `update_cache`). -/
def oto_step (acc : List OtomotoOffer × List OtomotoOffer)
    (po : Option OtomotoOffer) : List OtomotoOffer × List OtomotoOffer :=
  match po with
  | none => acc
  | some offer =>
    if offer ∈ acc.2 then acc else (acc.1 ++ [offer], acc.2 ++ [offer])

/-- Embeds `OtomotoScrapper.get_offers` from the parse results of the page's
article elements: fold the article loop over the parsed offers, starting from
an empty result list and the current in-memory cache; returns the new offers
and the updated scrapper state (only the in-memory cache changes — the dirty
flag and the disk file are untouched). -/
def get_offers (parsed : List (Option OtomotoOffer))
    (s : CacheState OtomotoOffer) :
    List OtomotoOffer × CacheState OtomotoOffer :=
  ((parsed.foldl oto_step ([], s.cache.getD [])).1,
    { s with cache := some (parsed.foldl oto_step ([], s.cache.getD [])).2 })

/-- The offers the article loop appends: parse results in order, skipping
`None` and offers already seen (in the cache or earlier in the same run). -/
def new_offs : List (Option OtomotoOffer) → List OtomotoOffer → List OtomotoOffer
  | [], _ => []
  | none :: ps, c => new_offs ps c
  | some o :: ps, c =>
    if o ∈ c then new_offs ps c else o :: new_offs ps (c ++ [o])

theorem foldl_oto_step_eq :
    ∀ (parsed : List (Option OtomotoOffer)) (n c : List OtomotoOffer),
      parsed.foldl oto_step (n, c) =
        (n ++ new_offs parsed c, c ++ new_offs parsed c) := by
  intro parsed
  induction parsed with
  | nil => intro n c; simp [new_offs]
  | cons po ps ih =>
    intro n c
    cases po with
    | none =>
      rw [List.foldl_cons]
      show ps.foldl oto_step (n, c) = _
      rw [ih, new_offs]
    | some o =>
      rw [List.foldl_cons]
      by_cases hm : o ∈ c
      · show ps.foldl oto_step (if o ∈ c then (n, c) else _) = _
        rw [if_pos hm, ih, new_offs, if_pos hm]
      · show ps.foldl oto_step (if o ∈ c then (n, c) else (n ++ [o], c ++ [o])) = _
        rw [if_neg hm, ih, new_offs, if_neg hm]
        simp [List.append_assoc]

theorem mem_new_offs :
    ∀ (parsed : List (Option OtomotoOffer)) (c : List OtomotoOffer)
      (o : OtomotoOffer),
      o ∈ new_offs parsed c ↔ some o ∈ parsed ∧ o ∉ c := by
  intro parsed
  induction parsed with
  | nil => intro c o; simp [new_offs]
  | cons po ps ih =>
    intro c o
    cases po with
    | none =>
      rw [new_offs, ih]
      simp
    | some o2 =>
      by_cases hm : o2 ∈ c
      · rw [new_offs, if_pos hm, ih, List.mem_cons]
        constructor
        · rintro ⟨hp, hnc⟩
          exact ⟨Or.inr hp, hnc⟩
        · rintro ⟨hor, hnc⟩
          rcases hor with ho | hp
          · rw [Option.some.injEq] at ho
            subst ho
            exact absurd hm hnc
          · exact ⟨hp, hnc⟩
      · rw [new_offs, if_neg hm, List.mem_cons, ih, List.mem_cons]
        constructor
        · rintro (rfl | ⟨hp, hnc⟩)
          · exact ⟨Or.inl rfl, hm⟩
          · rw [List.mem_append, List.mem_singleton] at hnc
            push_neg at hnc
            exact ⟨Or.inr hp, hnc.1⟩
        · rintro ⟨hor, hnc⟩
          rcases hor with ho | hp
          · rw [Option.some.injEq] at ho
            exact Or.inl ho
          · by_cases heq : o = o2
            · exact Or.inl heq
            · refine Or.inr ⟨hp, ?_⟩
              rw [List.mem_append, List.mem_singleton]
              push_neg
              exact ⟨hnc, heq⟩

theorem new_offs_idem (parsed : List (Option OtomotoOffer))
    (c : List OtomotoOffer) :
    new_offs parsed (c ++ new_offs parsed c) = [] := by
  rw [List.eq_nil_iff_forall_not_mem]
  intro o ho
  rw [mem_new_offs] at ho
  obtain ⟨hp, hnc⟩ := ho
  rw [List.mem_append] at hnc
  push_neg at hnc
  exact hnc.2 ((mem_new_offs parsed c o).mpr ⟨hp, hnc.1⟩)

/-- Claim C10: `OtomotoScrapper.get_offers` returns exactly the parsed offers
not already in the in-memory cache, inserts each returned offer into the
cache directly, leaves the dirty flag false so that a subsequent non-forced
`save_cache` does not write the cache file, and a second call over the same
parsed articles returns the empty list. -/
theorem c10_get_offers (parsed : List (Option OtomotoOffer))
    (s : CacheState OtomotoOffer) (c : List OtomotoOffer)
    (hc : s.cache = some c) (hd : s.dirty = false) :
    (∀ o, o ∈ (get_offers parsed s).1 ↔ some o ∈ parsed ∧ o ∉ c) ∧
      (get_offers parsed s).2.cache = some (c ++ (get_offers parsed s).1) ∧
      (get_offers parsed s).2.dirty = false ∧
      (save_cache false (get_offers parsed s).2).disk = s.disk ∧
      (get_offers parsed (get_offers parsed s).2).1 = [] := by
  have hgd : s.cache.getD [] = c := by rw [hc]; rfl
  have hfold := foldl_oto_step_eq parsed [] (s.cache.getD [])
  rw [hgd] at hfold
  have h1 : (get_offers parsed s).1 = new_offs parsed c := by
    rw [get_offers]
    show (parsed.foldl oto_step ([], s.cache.getD [])).1 = _
    rw [hgd, hfold]
    rfl
  have h2 : (get_offers parsed s).2.cache = some (c ++ new_offs parsed c) := by
    rw [get_offers]
    show some (parsed.foldl oto_step ([], s.cache.getD [])).2 = _
    rw [hgd, hfold]
  have h3 : (get_offers parsed s).2.dirty = s.dirty := by
    rw [get_offers]
  refine ⟨?_, ?_, ?_, ?_, ?_⟩
  · intro o
    rw [h1, mem_new_offs]
  · rw [h2, h1]
  · rw [h3, hd]
  · rw [save_cache_of_not_dirty _ (by rw [h3, hd])]
    rw [get_offers]
  · have hgd2 : (get_offers parsed s).2.cache.getD [] = c ++ new_offs parsed c := by
      rw [h2]; rfl
    rw [get_offers]
    show (parsed.foldl oto_step ([], (get_offers parsed s).2.cache.getD [])).1 = _
    rw [hgd2, foldl_oto_step_eq, new_offs_idem]
    rfl

/-- A parsed Otomoto listing not yet in the cache. -/
def oto1 : OtomotoOffer :=
  { title := "Audi A4", link := "l1", year := "2015", mileage := "100 000 km",
    image_link := none, price := "50 000 PLN" }

/-- A parsed Otomoto listing already in the cache. -/
def oto2 : OtomotoOffer :=
  { title := "BMW 320", link := "l2", year := "2016", mileage := "90 000 km",
    image_link := none, price := "60 000 PLN" }

/-- An Otomoto scrapper state with a clean, persisted cache holding `oto2`. -/
def otoState : CacheState OtomotoOffer :=
  { cache_path := some cachePathName
    cache := some [oto2]
    dirty := false
    disk := some [oto2] }

/-- The parse results of one page: `oto1` twice (once as a duplicate), one
unparsable article, and the already-cached `oto2`. -/
def otoParsed : List (Option OtomotoOffer) :=
  [some oto1, none, some oto1, some oto2]

theorem c10_witness :
    (get_offers otoParsed (get_offers otoParsed otoState).2).1 = [] ∧
      (save_cache false (get_offers otoParsed otoState).2).disk = some [oto2] ∧
      (oto1 ∈ (get_offers otoParsed otoState).1 ↔
        some oto1 ∈ otoParsed ∧ oto1 ∉ [oto2]) := by
  have h := c10_get_offers otoParsed otoState [oto2] rfl rfl
  exact ⟨h.2.2.2.2, h.2.2.2.1, h.1 oto1⟩

end LzxTools
